import Mathlib

/-!
Verification development for the jsDelivr API package-metadata core
(`src/routes/lib/v1/PackageRequest.js`).

The JavaScript source is shallowly embedded: each JS function that the
claims mention is translated into an executable Lean definition with the
same name, and network / cache effects are made explicit (upstream
responses become parameters, the redis store becomes explicit state, and
observable actions are recorded in an event trace).  The behaviour of the
`semver` npm package (version 5.x, as used by the repository) is embedded
for the subset of inputs the code feeds it: strict version parsing,
precedence comparison, `valid`, `prerelease`, `rcompare` sorting and
`maxSatisfying` over plain x-ranges.
-/

namespace JsDelivr

/-! ## Semantic versions (embedding of the `semver` npm package, v5) -/

/-- A prerelease identifier: numeric identifiers compare numerically and
below alphanumeric ones, alphanumeric identifiers compare by code points. -/
inductive PreId where
  | num (n : Nat)
  | str (s : String)
deriving DecidableEq

/-- A parsed semantic version.  Build metadata is dropped at parse time
because it never participates in precedence. -/
structure SemVer where
  major : Nat
  minor : Nat
  patch : Nat
  prerelease : List PreId
deriving DecidableEq

/-- Digit test for ASCII characters, as used by the semver grammar. -/
def isDigitCh (c : Char) : Bool := c.isDigit

/-- Characters allowed in prerelease / build identifiers: `[0-9A-Za-z-]`. -/
def isIdChar (c : Char) : Bool := c.isAlphanum || c == '-'

/-- Numeric value of a list of ASCII digits. -/
def natOfDigits (cs : List Char) : Nat :=
  cs.foldl (fun n c => n * 10 + (c.toNat - 48)) 0

/-- Strict numeric identifier: `0|[1-9]\d*` (nonempty, no leading zero). -/
def parseNumIdent (cs : List Char) : Option Nat :=
  match cs with
  | [] => none
  | c :: rest =>
    if cs.all isDigitCh then
      if c == '0' && rest ≠ [] then none
      else some (natOfDigits cs)
    else none

/-- Prerelease identifier: `0|[1-9]\d*|\d*[a-zA-Z-][0-9a-zA-Z-]*`. -/
def parsePreIdent (cs : List Char) : Option PreId :=
  match cs with
  | [] => none
  | _ =>
    if cs.all isDigitCh then
      (parseNumIdent cs).map PreId.num
    else if cs.all isIdChar then
      some (PreId.str (String.mk cs))
    else none

/-- Splits a character list at every occurrence of `c` (keeping empty parts),
like `String.prototype.split`. -/
def splitOnChar (c : Char) : List Char → List (List Char)
  | [] => [[]]
  | x :: xs =>
    let r := splitOnChar c xs
    if x == c then [] :: r
    else
      match r with
      | [] => [[x]]
      | h :: t => (x :: h) :: t

/-- Splits a character list at the first occurrence of `c`, if any. -/
def splitAtFirst (c : Char) : List Char → Option (List Char × List Char)
  | [] => none
  | x :: xs =>
    if x == c then some ([], xs)
    else (splitAtFirst c xs).map (fun p => (x :: p.1, p.2))

/-- Embedding of strict `semver.parse` (node-semver v5 `FULL` grammar):
an optional leading `v`, a `major.minor.patch` triple of strict numeric
identifiers, an optional dot-separated prerelease, and optional build
metadata (validated, then dropped). -/
def parseSemVer (s : String) : Option SemVer :=
  let cs := s.data
  let cs := match cs with
    | c :: rest => if c == 'v' then rest else c :: rest
    | [] => []
  let (core, bld) := match splitAtFirst '+' cs with
    | none => (cs, none)
    | some p => (p.1, some p.2)
  let (main, pre) := match splitAtFirst '-' core with
    | none => (core, none)
    | some p => (p.1, some p.2)
  match splitOnChar '.' main with
  | [ma, mi, pa] => do
    let major ← parseNumIdent ma
    let minor ← parseNumIdent mi
    let patch ← parseNumIdent pa
    let prerelease ← match pre with
      | none => some []
      | some p => (splitOnChar '.' p).mapM parsePreIdent
    match bld with
      | none => pure ()
      | some b =>
        if (splitOnChar '.' b).all (fun part => !part.isEmpty && part.all isIdChar) then pure ()
        else none
    some ⟨major, minor, patch, prerelease⟩
  | _ => none

/-- Embedding of `semver.valid` (as a Boolean). -/
def semverValid (s : String) : Bool := (parseSemVer s).isSome

/-- Embedding of `semver.prerelease(v) !== null` for valid versions:
true when the parsed version carries prerelease identifiers. -/
def semverHasPrerelease (s : String) : Bool :=
  match parseSemVer s with
  | some v => !v.prerelease.isEmpty
  | none => false

/-- The filter applied by `getResolvedVersion`:
`semver.valid(v) && !semver.prerelease(v)`. -/
def releaseFilter (v : String) : Bool := semverValid v && !semverHasPrerelease v

/-! ## Precedence comparison -/

/-- Code-point comparison of characters (JS string relational operators
compare UTF-16 code units; identifiers here are ASCII). -/
def chCmp (a b : Char) : Ordering := compare a.toNat b.toNat

/-- Lexicographic comparison of lists induced by an element comparator. -/
def lexCmp (c : α → α → Ordering) : List α → List α → Ordering
  | [], [] => .eq
  | [], _ :: _ => .lt
  | _ :: _, [] => .gt
  | x :: xs, y :: ys => (c x y).then (lexCmp c xs ys)

/-- Code-point comparison of strings. -/
def strCmp (a b : String) : Ordering := lexCmp chCmp a.data b.data

/-- Comparison of prerelease identifiers: numeric identifiers compare
numerically and are lower than alphanumeric identifiers, which compare
by code points. -/
def PreId.cmp : PreId → PreId → Ordering
  | .num a, .num b => compare a b
  | .num _, .str _ => .lt
  | .str _, .num _ => .gt
  | .str a, .str b => strCmp a b

/-- Comparison of prerelease identifier lists: a version without
prerelease identifiers has higher precedence than one with them;
otherwise identifiers are compared pairwise, a shorter prefix being lower. -/
def preCmp : List PreId → List PreId → Ordering
  | [], [] => .eq
  | [], _ :: _ => .gt
  | _ :: _, [] => .lt
  | x :: xs, y :: ys => lexCmp PreId.cmp (x :: xs) (y :: ys)

/-- Embedding of semver precedence comparison (`semver.compare` on parsed
versions): major, then minor, then patch, then prerelease. -/
def SemVer.cmp (a b : SemVer) : Ordering :=
  (compare a.major b.major).then
    ((compare a.minor b.minor).then
      ((compare a.patch b.patch).then (preCmp a.prerelease b.prerelease)))

/-- Parses a version string, defaulting to `0.0.0` on failure.  Every call
site below feeds it only strings already filtered by `semver.valid`
(node-semver itself would throw on an invalid string; the unfiltered npm
sorting path is modelled separately by `rcompareE`). -/
def parseD (s : String) : SemVer := (parseSemVer s).getD ⟨0, 0, 0, []⟩

/-- Precedence comparison lifted to (valid) version strings. -/
def cmpStr (a b : String) : Ordering := SemVer.cmp (parseD a) (parseD b)

/-! ## Comparator laws

`SemVer.cmp` is a total-preorder comparator; this is what makes the
descending sort in `getResolvedVersion` / `fetchNpmMetadata` produce a
maximum at the head.  The laws are stated for an arbitrary comparator and
proved for each layer of the comparison. -/

/-- Laws of a total-preorder comparator: antisymmetric swap, congruence of
equal elements, and transitivity of strict comparison. -/
structure LawfulC (c : α → α → Ordering) : Prop where
  swap : ∀ x y, c x y = (c y x).swap
  eqc : ∀ x y, c x y = .eq → ∀ z, c x z = c y z
  ltt : ∀ x y z, c x y = .lt → c y z = .lt → c x z = .lt

theorem swap_then (o p : Ordering) : o.swap.then p.swap = (o.then p).swap := by
  cases o <;> cases p <;> rfl

theorem then_eq_eq {o p : Ordering} : o.then p = .eq ↔ o = .eq ∧ p = .eq := by
  cases o <;> simp [Ordering.then]

theorem then_eq_lt {o p : Ordering} : o.then p = .lt ↔ o = .lt ∨ (o = .eq ∧ p = .lt) := by
  cases o <;> simp [Ordering.then]

theorem swap_eq_gt {o : Ordering} : o.swap = .gt ↔ o = .lt := by
  cases o <;> simp [Ordering.swap]

theorem swap_eq_eq {o : Ordering} : o.swap = .eq ↔ o = .eq := by
  cases o <;> simp [Ordering.swap]

theorem eq_of_self_swap {o : Ordering} (h : o = o.swap) : o = .eq := by
  cases o <;> simp [Ordering.swap] at h ⊢

namespace LawfulC

variable {c : α → α → Ordering}

theorem gt_iff (hc : LawfulC c) {x y : α} : c x y = .gt ↔ c y x = .lt := by
  rw [hc.swap x y, swap_eq_gt]

theorem refl (hc : LawfulC c) (x : α) : c x x = .eq :=
  eq_of_self_swap (hc.swap x x)

theorem eqcr (hc : LawfulC c) {x y z : α} (h : c y z = .eq) : c x z = c x y := by
  have hzy : c z y = .eq := by rw [hc.swap z y, h]; rfl
  rw [hc.swap x z, hc.eqc z y hzy x, ← hc.swap x y]

theorem le_trans (hc : LawfulC c) {x y z : α} (hxy : c x y ≠ .gt) (hyz : c y z ≠ .gt) :
    c x z ≠ .gt := by
  intro h
  have hzx : c z x = .lt := hc.gt_iff.mp h
  cases hyz' : c y z with
  | gt => exact hyz hyz'
  | lt => exact hxy (hc.gt_iff.mpr (hc.ltt y z x hyz' hzx))
  | eq => exact hxy (hc.gt_iff.mpr (by rw [← hc.eqc y z hyz' x] at hzx; exact hzx))

theorem comap (hc : LawfulC c) (f : β → α) : LawfulC (fun x y => c (f x) (f y)) where
  swap := fun x y => hc.swap (f x) (f y)
  eqc := fun x y h z => hc.eqc (f x) (f y) h (f z)
  ltt := fun x y z => hc.ltt (f x) (f y) (f z)

theorem then_comp {c₁ c₂ : α → α → Ordering} (h₁ : LawfulC c₁) (h₂ : LawfulC c₂) :
    LawfulC (fun a b => (c₁ a b).then (c₂ a b)) where
  swap := by
    intro x y
    rw [h₁.swap x y, h₂.swap x y, swap_then]
  eqc := by
    intro x y h z
    obtain ⟨e₁, e₂⟩ := then_eq_eq.mp h
    rw [h₁.eqc x y e₁ z, h₂.eqc x y e₂ z]
  ltt := by
    intro x y z hxy hyz
    rcases then_eq_lt.mp hxy with h | ⟨he, hl⟩ <;> rcases then_eq_lt.mp hyz with h' | ⟨he', hl'⟩
    · exact then_eq_lt.mpr (Or.inl (h₁.ltt x y z h h'))
    · exact then_eq_lt.mpr (Or.inl (by rw [h₁.eqcr he']; exact h))
    · exact then_eq_lt.mpr (Or.inl (by rw [h₁.eqc x y he z]; exact h'))
    · refine then_eq_lt.mpr (Or.inr ⟨by rw [h₁.eqc x y he z]; exact he', h₂.ltt x y z hl hl'⟩)

end LawfulC

theorem lawfulC_natCmp : LawfulC (fun a b : Nat => compare a b) where
  swap := by
    intro a b
    rcases Nat.lt_trichotomy a b with h | h | h
    · rw [Nat.compare_eq_lt.mpr h, Nat.compare_eq_gt.mpr h]; rfl
    · rw [Nat.compare_eq_eq.mpr h, Nat.compare_eq_eq.mpr h.symm]; rfl
    · rw [Nat.compare_eq_gt.mpr h, Nat.compare_eq_lt.mpr h]; rfl
  eqc := by
    intro a b h z
    rw [Nat.compare_eq_eq.mp h]
  ltt := by
    intro a b z h h'
    exact Nat.compare_eq_lt.mpr (Nat.lt_trans (Nat.compare_eq_lt.mp h) (Nat.compare_eq_lt.mp h'))

theorem lawfulC_chCmp : LawfulC chCmp := lawfulC_natCmp.comap Char.toNat

theorem lexCmp_swap {c : α → α → Ordering} (hc : ∀ x y, c x y = (c y x).swap) :
    ∀ xs ys, lexCmp c xs ys = (lexCmp c ys xs).swap
  | [], [] => rfl
  | [], _ :: _ => rfl
  | _ :: _, [] => rfl
  | x :: xs, y :: ys => by
    show (c x y).then (lexCmp c xs ys) = ((c y x).then (lexCmp c ys xs)).swap
    rw [hc x y, lexCmp_swap hc xs ys, swap_then]

theorem lexCmp_eqc {c : α → α → Ordering} (hc : ∀ x y, c x y = .eq → ∀ z, c x z = c y z) :
    ∀ xs ys, lexCmp c xs ys = .eq → ∀ zs, lexCmp c xs zs = lexCmp c ys zs
  | [], [], _, _ => rfl
  | [], _ :: _, h, _ => by simp [lexCmp] at h
  | _ :: _, [], h, _ => by simp [lexCmp] at h
  | x :: xs, y :: ys, h, zs => by
    obtain ⟨e₁, e₂⟩ := then_eq_eq.mp (h : (c x y).then (lexCmp c xs ys) = .eq)
    cases zs with
    | nil => rfl
    | cons z zs =>
      show (c x z).then (lexCmp c xs zs) = (c y z).then (lexCmp c ys zs)
      rw [hc x y e₁ z, lexCmp_eqc hc xs ys e₂ zs]

theorem lexCmp_ltt {c : α → α → Ordering} (hc : LawfulC c) :
    ∀ xs ys zs, lexCmp c xs ys = .lt → lexCmp c ys zs = .lt → lexCmp c xs zs = .lt
  | [], ys, zs, h, h' => by
    cases zs with
    | nil =>
      exfalso
      cases ys with
      | nil => simp [lexCmp] at h
      | cons _ _ => simp [lexCmp] at h'
    | cons _ _ => rfl
  | _ :: _, [], _, h, _ => by simp [lexCmp] at h
  | x :: xs, y :: ys, zs, h, h' => by
    cases zs with
    | nil => simp [lexCmp] at h'
    | cons z zs =>
      have h1 := then_eq_lt.mp (h : (c x y).then (lexCmp c xs ys) = .lt)
      have h2 := then_eq_lt.mp (h' : (c y z).then (lexCmp c ys zs) = .lt)
      show (c x z).then (lexCmp c xs zs) = .lt
      rcases h1 with hxy | ⟨hxy, hts⟩ <;> rcases h2 with hyz | ⟨hyz, hts'⟩
      · exact then_eq_lt.mpr (Or.inl (hc.ltt x y z hxy hyz))
      · exact then_eq_lt.mpr (Or.inl (by rw [hc.eqcr hyz]; exact hxy))
      · exact then_eq_lt.mpr (Or.inl (by rw [hc.eqc x y hxy z]; exact hyz))
      · exact then_eq_lt.mpr
          (Or.inr ⟨by rw [hc.eqc x y hxy z]; exact hyz, lexCmp_ltt hc xs ys zs hts hts'⟩)

theorem lawfulC_lexCmp {c : α → α → Ordering} (hc : LawfulC c) : LawfulC (lexCmp c) where
  swap := lexCmp_swap hc.swap
  eqc := lexCmp_eqc hc.eqc
  ltt := lexCmp_ltt hc

theorem lawfulC_strCmp : LawfulC strCmp :=
  (lawfulC_lexCmp lawfulC_chCmp).comap String.data

theorem lawfulC_preIdCmp : LawfulC PreId.cmp where
  swap := by
    intro x y
    cases x <;> cases y
    · exact lawfulC_natCmp.swap _ _
    · rfl
    · rfl
    · exact lawfulC_strCmp.swap _ _
  eqc := by
    intro x y h z
    cases x with
    | num a =>
      cases y with
      | num b =>
        have hab : a = b := Nat.compare_eq_eq.mp h
        subst hab
        rfl
      | str b => exact Ordering.noConfusion h
    | str a =>
      cases y with
      | num b => exact Ordering.noConfusion h
      | str b =>
        cases z with
        | num c => rfl
        | str c => exact lawfulC_strCmp.eqc a b h c
  ltt := by
    intro x y z h h'
    cases x with
    | num a =>
      cases y with
      | num b =>
        cases z with
        | num c => exact lawfulC_natCmp.ltt a b c h h'
        | str c => rfl
      | str b =>
        cases z with
        | num c => exact Ordering.noConfusion h'
        | str c => rfl
    | str a =>
      cases y with
      | num b => exact Ordering.noConfusion h
      | str b =>
        cases z with
        | num c => exact Ordering.noConfusion h'
        | str c => exact lawfulC_strCmp.ltt a b c h h'

theorem lawfulC_preCmp : LawfulC preCmp where
  swap := by
    intro x y
    cases x <;> cases y
    · rfl
    · rfl
    · rfl
    · exact (lawfulC_lexCmp lawfulC_preIdCmp).swap _ _
  eqc := by
    intro x y h z
    cases x with
    | nil =>
      cases y with
      | nil => rfl
      | cons b bs => exact Ordering.noConfusion h
    | cons a as =>
      cases y with
      | nil => exact Ordering.noConfusion h
      | cons b bs =>
        cases z with
        | nil => rfl
        | cons c cs => exact (lawfulC_lexCmp lawfulC_preIdCmp).eqc _ _ h _
  ltt := by
    intro x y z h h'
    cases x with
    | nil =>
      cases y with
      | nil => exact Ordering.noConfusion h
      | cons b bs => exact Ordering.noConfusion h
    | cons a as =>
      cases y with
      | nil =>
        cases z with
        | nil => exact Ordering.noConfusion h'
        | cons c cs => exact Ordering.noConfusion h'
      | cons b bs =>
        cases z with
        | nil => rfl
        | cons c cs => exact (lawfulC_lexCmp lawfulC_preIdCmp).ltt _ _ _ h h'

theorem lawfulC_semverCmp : LawfulC SemVer.cmp := by
  have h1 := lawfulC_natCmp.comap SemVer.major
  have h2 := lawfulC_natCmp.comap SemVer.minor
  have h3 := lawfulC_natCmp.comap SemVer.patch
  have h4 := lawfulC_preCmp.comap SemVer.prerelease
  exact h1.then_comp (h2.then_comp (h3.then_comp h4))

theorem lawfulC_cmpStr : LawfulC cmpStr := lawfulC_semverCmp.comap parseD

/-! ## Descending sort (embedding of `versions.sort(semver.rcompare)`)

`Array.prototype.sort` with the `semver.rcompare` comparator sorts
descending by precedence; it is modelled as a stable insertion sort.
A fallible variant mirrors the fact that `semver.rcompare` throws
`Invalid Version` when it meets a string that does not parse (this can
happen only on the unfiltered npm path, `fetchNpmMetadata`). -/

/-- Inserts `x` into an already descending list, before the first element
it strictly exceeds (stable: `x` goes after elements of equal precedence). -/
def insertDesc (x : String) : List String → List String
  | [] => [x]
  | y :: l => if cmpStr x y = .gt then x :: y :: l else y :: insertDesc x l

/-- Stable insertion sort, descending by semver precedence. -/
def insortDesc (l : List String) : List String :=
  l.foldl (fun acc x => insertDesc x acc) []

/-- Descending order: every element is `≥` (never `lt`) each later one. -/
def DescSorted (l : List String) : Prop :=
  l.Pairwise (fun a b => cmpStr a b ≠ .lt)

theorem insertDesc_perm (x : String) (l : List String) :
    (insertDesc x l).Perm (x :: l) := by
  induction l with
  | nil => exact List.Perm.refl _
  | cons y l ih =>
    show (if cmpStr x y = .gt then x :: y :: l else y :: insertDesc x l).Perm _
    split
    · exact List.Perm.refl _
    · exact (ih.cons y).trans (List.Perm.swap x y l)

theorem insortDesc_aux_perm :
    ∀ (l acc : List String), (l.foldl (fun a x => insertDesc x a) acc).Perm (l ++ acc)
  | [], _ => List.Perm.refl _
  | x :: l, acc => by
    show (l.foldl (fun a x => insertDesc x a) (insertDesc x acc)).Perm _
    refine (insortDesc_aux_perm l (insertDesc x acc)).trans ?_
    refine (List.Perm.append_left l (insertDesc_perm x acc)).trans ?_
    exact List.perm_middle

theorem insortDesc_perm (l : List String) : (insortDesc l).Perm l := by
  simpa using insortDesc_aux_perm l []

theorem insortDesc_mem {l : List String} {a : String} : a ∈ insortDesc l ↔ a ∈ l :=
  (insortDesc_perm l).mem_iff

theorem insertDesc_descSorted {x : String} {l : List String} (h : DescSorted l) :
    DescSorted (insertDesc x l) := by
  induction l with
  | nil => exact List.pairwise_singleton _ x
  | cons y l ih =>
    obtain ⟨hy, hl⟩ := List.pairwise_cons.mp h
    show DescSorted (if cmpStr x y = .gt then x :: y :: l else y :: insertDesc x l)
    split
    case isTrue hgt =>
      refine List.pairwise_cons.mpr ⟨?_, h⟩
      intro z hz
      rcases List.mem_cons.mp hz with rfl | hz
      · rw [hgt]
        decide
      · have hyz : cmpStr y z ≠ .lt := hy z hz
        have hzy : cmpStr z y ≠ .gt := fun hcon => hyz (lawfulC_cmpStr.gt_iff.mp hcon)
        have hyx : cmpStr y x ≠ .gt := fun hcon => by
          have hlt : cmpStr x y = .lt := lawfulC_cmpStr.gt_iff.mp hcon
          rw [hgt] at hlt
          exact Ordering.noConfusion hlt
        have hzx : cmpStr z x ≠ .gt := lawfulC_cmpStr.le_trans hzy hyx
        exact fun hcon => hzx (lawfulC_cmpStr.gt_iff.mpr hcon)
    case isFalse hng =>
      refine List.pairwise_cons.mpr ⟨?_, ih hl⟩
      intro z hz
      have hz' : z ∈ x :: l := (insertDesc_perm x l).mem_iff.mp hz
      rcases List.mem_cons.mp hz' with rfl | hz''
      · exact fun hcon => hng (lawfulC_cmpStr.gt_iff.mpr hcon)
      · exact hy z hz''

theorem insortDesc_descSorted (l : List String) : DescSorted (insortDesc l) := by
  have aux : ∀ (l acc : List String), DescSorted acc →
      DescSorted (l.foldl (fun a x => insertDesc x a) acc) := by
    intro l
    induction l with
    | nil => exact fun acc h => h
    | cons x l ih => exact fun acc h => ih (insertDesc x acc) (insertDesc_descSorted h)
  exact aux l [] List.Pairwise.nil

/-- The head of the descending sort is a precedence maximum of the input. -/
theorem insortDesc_head_max {l : List String} {v : String} {rest : List String}
    (h : insortDesc l = v :: rest) : ∀ w ∈ l, cmpStr w v ≠ .gt := by
  intro w hw
  have hw' : w ∈ v :: rest := h ▸ insortDesc_mem.mpr hw
  have hs : DescSorted (v :: rest) := h ▸ insortDesc_descSorted l
  rcases List.mem_cons.mp hw' with rfl | hw''
  · rw [lawfulC_cmpStr.refl _]
    decide
  · have hvw := (List.pairwise_cons.mp hs).1 w hw''
    exact fun hcon => hvw (lawfulC_cmpStr.gt_iff.mp hcon)

/-- Embedding of `semver.rcompare` as invoked by `Array.prototype.sort`:
`rcompare(a, b)` is `compare(b, a)`, which parses `b` first and throws
`Invalid Version` (modelled as `Except.error`) on an unparsable string. -/
def rcompareE (a b : String) : Except String Ordering :=
  match parseSemVer b with
  | none => .error ("Invalid Version: " ++ b)
  | some vb =>
    match parseSemVer a with
    | none => .error ("Invalid Version: " ++ a)
    | some va => .ok (SemVer.cmp vb va)

/-- Fallible insertion step threading comparator exceptions. -/
def insertDescE (x : String) : List String → Except String (List String)
  | [] => .ok [x]
  | y :: l => do
    let c ← rcompareE x y
    if c = .lt then .ok (x :: y :: l)
    else do
      let r ← insertDescE x l
      .ok (y :: r)

/-- Fallible descending sort: the comparator's exception aborts the sort. -/
def insortDescE (l : List String) : Except String (List String) :=
  l.foldlM (fun acc x => insertDescE x acc) []

theorem insertDescE_eq {x : String} {l : List String}
    (hx : semverValid x = true) (hl : ∀ y ∈ l, semverValid y = true) :
    insertDescE x l = .ok (insertDesc x l) := by
  induction l with
  | nil => rfl
  | cons y l ih =>
    have hy := hl y (List.mem_cons_self y l)
    obtain ⟨vx, hvx⟩ := Option.isSome_iff_exists.mp hx
    obtain ⟨vy, hvy⟩ := Option.isSome_iff_exists.mp hy
    have hcs : cmpStr x y = SemVer.cmp vx vy := by
      simp [cmpStr, parseD, hvx, hvy]
    have hswap : SemVer.cmp vy vx = (SemVer.cmp vx vy).swap := lawfulC_semverCmp.swap vy vx
    show (do
        let c ← rcompareE x y
        if c = .lt then .ok (x :: y :: l)
        else do
          let r ← insertDescE x l
          .ok (y :: r)) = Except.ok (insertDesc x (y :: l))
    rw [show rcompareE x y = .ok (SemVer.cmp vy vx) by simp [rcompareE, hvx, hvy]]
    rw [ih (fun z hz => hl z (List.mem_cons_of_mem y hz))]
    show (if SemVer.cmp vy vx = .lt then Except.ok (x :: y :: l)
        else Except.ok (y :: insertDesc x l)) =
      Except.ok (if cmpStr x y = .gt then x :: y :: l else y :: insertDesc x l)
    rw [hcs, hswap]
    cases SemVer.cmp vx vy <;> rfl

theorem insortDescE_eq {l : List String} (hl : ∀ y ∈ l, semverValid y = true) :
    insortDescE l = .ok (insortDesc l) := by
  have aux : ∀ (l acc : List String), (∀ y ∈ l, semverValid y = true) →
      (∀ y ∈ acc, semverValid y = true) →
      (l.foldlM (fun a x => insertDescE x a) acc : Except String (List String)) =
        .ok (l.foldl (fun a x => insertDesc x a) acc) := by
    intro l
    induction l with
    | nil => intro acc _ _; rfl
    | cons x l ih =>
      intro acc hxl hacc
      have hx := hxl x (List.mem_cons_self x l)
      show (do
          let a ← insertDescE x acc
          (l.foldlM (fun a x => insertDescE x a) a : Except String (List String))) = _
      rw [insertDescE_eq hx hacc]
      show (l.foldlM (fun a x => insertDescE x a) (insertDesc x acc) :
          Except String (List String)) = _
      refine ih (insertDesc x acc) (fun z hz => hxl z (List.mem_cons_of_mem x hz)) ?_
      intro z hz
      have hz' : z ∈ x :: acc := (insertDesc_perm x acc).mem_iff.mp hz
      rcases List.mem_cons.mp hz' with rfl | hz''
      · exact hx
      · exact hacc z hz''
  exact aux l [] hl (by intro z hz; exact absurd hz (List.not_mem_nil z))

/-! ## Package metadata and version resolution -/

/-- A JavaScript value as produced by version resolution (`undefined` for
an out-of-bounds array read / `versions[0]` of an empty list, `null` for
`semver.maxSatisfying` without a match). -/
inductive JsVal where
  | str (s : String)
  | num (n : Nat)
  | null
  | undefined
deriving DecidableEq

/-- The `tags` field of normalized metadata, as the JavaScript value left
by a JSON round trip: the npm fetcher supplies an object mapping tag
names to version strings, the GitHub fetcher supplies an (empty) array. -/
inductive Tags where
  | obj (fields : List (String × String))
  | arr (elems : List String)
deriving DecidableEq

/-- Embedding of `tags.hasOwnProperty(k)`.  The own properties of a JS
array are its canonical indexes and `length`. -/
def Tags.hasOwnProperty : Tags → String → Bool
  | .obj fs, k => fs.any (fun p => p.1 == k)
  | .arr es, k => k == "length" || (List.range es.length).any (fun i => Nat.repr i == k)

/-- Embedding of the member access `tags[k]`. -/
def Tags.get : Tags → String → JsVal
  | .obj fs, k =>
    match fs.find? (fun p => p.1 == k) with
    | some p => .str p.2
    | none => .undefined
  | .arr es, k =>
    if k == "length" then .num es.length
    else
      match (List.range es.length).find? (fun i => Nat.repr i == k) with
      | some i =>
        match es[i]? with
        | some e => .str e
        | none => .undefined
      | none => .undefined

/-- Normalized package metadata `{ tags, versions }`, the shape produced
by both metadata fetchers (field order follows the source object
literals). -/
structure PackageMetadata where
  tags : Tags
  versions : List String
deriving DecidableEq

/-- The subset of node-semver range syntax modelled here: `*`-style
wildcards, `N` / `N.x` / `N.x.x` major ranges, `N.M` / `N.M.x` minor
ranges, and exact `N.M.P` triples.  Other strings are treated as
unparsable, which makes `maxSatisfying` yield `null` exactly as
node-semver does for an invalid range; for valid range syntaxes outside
the subset (comparators such as `>=1.0.0`, hyphen ranges, prerelease
suffixes) the model is partial and no claim below depends on them. -/
inductive SimpleRange where
  | all
  | major (n : Nat)
  | minor (n m : Nat)
  | exact (v : SemVer)
deriving DecidableEq

/-- Wildcard part of an x-range: `x`, `X` or `*`. -/
def isWildcardPart (cs : List Char) : Bool := cs == ['x'] || cs == ['X'] || cs == ['*']

/-- Parses the modelled subset of range syntax. -/
def parseSimpleRange (s : String) : Option SimpleRange :=
  if s.data.isEmpty || isWildcardPart s.data then some .all
  else
    match splitOnChar '.' s.data with
    | [a] => (parseNumIdent a).map SimpleRange.major
    | [a, b] =>
      (parseNumIdent a).bind fun n =>
        if isWildcardPart b then some (SimpleRange.major n)
        else (parseNumIdent b).map (SimpleRange.minor n)
    | [a, b, c] =>
      (parseNumIdent a).bind fun n =>
        if isWildcardPart b then
          if isWildcardPart c then some (SimpleRange.major n) else none
        else
          (parseNumIdent b).bind fun m =>
            if isWildcardPart c then some (SimpleRange.minor n m)
            else (parseNumIdent c).map fun p => SimpleRange.exact ⟨n, m, p, []⟩
    | _ => none

/-- Satisfaction of a simple range by a parsed version; under
node-semver's default options a version carrying prerelease identifiers
satisfies none of these comparator shapes. -/
def rangeSatisfied : SimpleRange → SemVer → Bool
  | .all, v => v.prerelease.isEmpty
  | .major n, v => v.prerelease.isEmpty && v.major == n
  | .minor n m, v => v.prerelease.isEmpty && v.major == n && v.minor == m
  | .exact e, v => SemVer.cmp v e == .eq

/-- Loop body of the `maxSatisfying` forEach: keep the current candidate
unless `v` satisfies the range and exceeds it (`maxSV.compare(v) === -1`).
An invalid version string would make node-semver throw here; the call
sites below only ever pass strings already filtered by `semver.valid`,
so that branch keeps the accumulator. -/
def msStep (r : SimpleRange) (acc : Option String) (v : String) : Option String :=
  match parseSemVer v with
  | none => acc
  | some sv =>
    if rangeSatisfied r sv then
      match acc with
      | none => some v
      | some cur => if cmpStr cur v = .lt then some v else acc
    else acc

/-- Embedding of `semver.maxSatisfying(versions, range)`: an unparsable
range yields `null` (node-semver catches the `Range` constructor's
exception), otherwise the highest satisfying entry, or `null` when none
satisfies. -/
def maxSatisfying (vs : List String) (range : String) : JsVal :=
  match parseSimpleRange range with
  | none => JsVal.null
  | some r =>
    match vs.foldl (msStep r) none with
    | none => JsVal.null
    | some v => JsVal.str v

theorem msStep_cases (r : SimpleRange) (acc : Option String) (v : String) :
    msStep r acc v = acc ∨ msStep r acc v = some v := by
  unfold msStep
  split
  · exact Or.inl rfl
  · split
    · split
      · exact Or.inr rfl
      · split
        · exact Or.inr rfl
        · exact Or.inl rfl
    · exact Or.inl rfl

theorem msFold_mem {r : SimpleRange} {v : String} :
    ∀ (l : List String) (acc : Option String),
      l.foldl (msStep r) acc = some v → acc = some v ∨ v ∈ l
  | [], _, h => Or.inl h
  | x :: l, acc, h => by
    rcases msFold_mem l (msStep r acc x) h with h' | h'
    · rcases msStep_cases r acc x with he | he
      · rw [he] at h'
        exact Or.inl h'
      · rw [he] at h'
        exact Or.inr (List.mem_cons.mpr (Or.inl (Option.some.inj h').symm))
    · exact Or.inr (List.mem_cons_of_mem x h')

/-- A successful `maxSatisfying` answer is drawn from the input list. -/
theorem maxSatisfying_mem {vs : List String} {range : String} {v : String}
    (h : maxSatisfying vs range = .str v) : v ∈ vs := by
  unfold maxSatisfying at h
  split at h
  · exact absurd h (by simp)
  · split at h
    · exact absurd h (by simp)
    · rename_i r _ w hw
      rcases msFold_mem vs none hw with hn | hm
      · exact absurd hn (by simp)
      · cases h
        exact hm

/-- Embedding of `PackageRequest#getResolvedVersion` applied to the parsed
metadata: exact member of `versions`, then tag lookup, then the
`latest`/empty fallback over the filtered descending sort, then
`semver.maxSatisfying`.  The requested specifier `this.params.version` is
a string, with `""` standing for an absent parameter (both are falsy). -/
def getResolvedVersion (m : PackageMetadata) (specifier : String) : JsVal :=
  let versions := insortDesc (m.versions.filter releaseFilter)
  if m.versions.contains specifier then .str specifier
  else if m.tags.hasOwnProperty specifier then m.tags.get specifier
  else if specifier == "latest" || specifier == "" then
    match versions with
    | [] => .undefined
    | v :: _ => .str v
  else maxSatisfying versions specifier

/-- Response body shapes assigned to `this.ctx.body` by
`handleResolveVersion` / `responseNotFound`. -/
inductive RvBody where
  | version (v : JsVal)
  | err (status : Nat) (message : String)
deriving DecidableEq

/-- Embedding of `handleResolveVersion`: the `try` block catches a
rejected `getMetadata()` (passed in as `metaRes`, the outcome of the
metadata fetch chain) and answers with `responseNotFound`; when the fetch
succeeds the body is always `{ version: <resolution result> }`, whatever
that result is. -/
def handleResolveVersion (metaRes : Except String PackageMetadata)
    (name specifier : String) : RvBody :=
  match metaRes with
  | .error _ => .err 404 ("Couldn't find " ++ name ++ "@" ++ specifier ++ ".")
  | .ok m => .version (getResolvedVersion m specifier)

/-! ## The npm metadata fetcher -/

/-- Unreserved characters of `encodeURIComponent`. -/
def isUnreservedCh (c : Char) : Bool :=
  c.isAlphanum || c == '-' || c == '_' || c == '.' || c == '!' || c == '~' ||
    c == '*' || c == Char.ofNat 39 || c == '(' || c == ')'

/-- Upper-case hexadecimal digit for a value below 16. -/
def hexDigitCh (n : Nat) : Char :=
  if n < 10 then Char.ofNat (48 + n) else Char.ofNat (55 + n)

/-- Percent-encoding of one UTF-8 byte. -/
def pctByte (b : UInt8) : String :=
  String.mk ['%', hexDigitCh (b.toNat / 16), hexDigitCh (b.toNat % 16)]

/-- Embedding of `encodeURIComponent`: unreserved characters pass
through, everything else is percent-encoded as UTF-8 bytes. -/
def encodeURIComponent (s : String) : String :=
  s.data.foldl (fun acc c =>
    acc ++ (if isUnreservedCh c then String.mk [c]
      else String.join ((String.mk [c]).toUTF8.toList.map pctByte))) ""

/-- Embedding of the name normalization at the top of `fetchNpmMetadata`:
a scoped name keeps its leading `@` and the remainder is encoded,
otherwise the whole name is encoded. -/
def encodePackageName (name : String) : String :=
  match name.data with
  | c :: rest =>
    if c == '@' then "@" ++ encodeURIComponent (String.mk rest)
    else encodeURIComponent name
  | [] => encodeURIComponent name

/-- The decoded JSON body of a registry response, narrowed to the fields
the fetcher reads: the key list of the `versions` object (in JS object
key order; `none` models a falsy/absent `versions` field) and the
`dist-tags` object, kept whole. -/
structure NpmBody where
  versions : Option (List String)
  distTags : Tags
deriving DecidableEq

/-- Embedding of `fetchNpmMetadata` once the HTTP race has delivered a
response: `body` is `none` for a falsy `response.body`.  A missing
versions collection raises the "no versions" error; otherwise the keys
are sorted descending with `semver.rcompare` (which throws on a key that
is not a valid version - the fallible sort) and `dist-tags` is copied
verbatim. -/
def fetchNpmMetadata (name : String) (body : Option NpmBody) :
    Except String PackageMetadata :=
  let ename := encodePackageName name
  match body with
  | none => .error ("Unable to retrieve versions for package " ++ ename ++ ".")
  | some b =>
    match b.versions with
    | none => .error ("Unable to retrieve versions for package " ++ ename ++ ".")
    | some keys =>
      match insortDescE keys with
      | .error e => .error e
      | .ok sorted => .ok { tags := b.distTags, versions := sorted }

/-! ## The GitHub metadata fetcher -/

/-- One GitHub tag-listing response: `data` carries the page's tag names
(`none` models a falsy `response.data`), `hasNext` is
`githubApi.hasNextPage(response)`. -/
structure GhResp where
  data : Option (List String)
  hasNext : Bool
deriving DecidableEq

/-- Embedding of the `loadMore` recursion inside `fetchGitHubMetadata`:
push the current page's tag names, then follow the pagination cursor
while `response.data` is truthy and a next page is announced.  `rest` is
the sequence of responses `getNextPage` will deliver; running out of it
while a next page is announced models a rejected page fetch. -/
def loadMoreM : GhResp → List GhResp → List String → Except String (List String)
  | r, rest, acc =>
    if r.data.isSome && r.hasNext then
      match rest with
      | [] => .error "getNextPage: no next page"
      | next :: rest' => loadMoreM next rest' (acc ++ r.data.getD [])
    else .ok (acc ++ r.data.getD [])

/-- Embedding of `fetchGitHubMetadata` over a resolved tag-listing
sequence (the initial `getTags` response and the later pages).  The
result carries `tags: []` - an empty array, not an empty object.  The
rejection path (the `catch` that logs a 403 and re-throws) is not
reached on this success path. -/
def fetchGitHubMetadata (first : GhResp) (rest : List GhResp) :
    Except String PackageMetadata :=
  (loadMoreM first rest []).map fun versions => { tags := Tags.arr [], versions }

/-- Builds a well-formed page sequence: every page announces a next page
except the last. -/
def mkGhResps : List (List String) → List GhResp
  | [] => []
  | p :: rest => ⟨some p, !rest.isEmpty⟩ :: mkGhResps rest

/-! ## The cache-aside layer and the files handler -/

/-- A JSON value; payloads stored in redis and assigned to `ctx.body`
are modelled up to the `JSON.stringify`/`JSON.parse` round trip. -/
inductive Json where
  | null
  | bool (b : Bool)
  | num (n : Nat)
  | str (s : String)
  | arr (elems : List Json)
  | obj (fields : List (String × Json))

/-- Classification of a `got` rejection as tested by the handlers:
`got.ParseError` is the only class `handleVersionFiles` maps to a body,
everything else is re-thrown. -/
inductive ErrClass where
  | httpError
  | parseError
  | transport
deriving DecidableEq

/-- A `got` rejection: its class, `error.response.statusCode` (`none`
models an absent/falsy status) and `error.response.body`. -/
structure GotErr where
  cls : ErrClass
  statusCode : Option Nat
  body : Json

/-- Upstream outcome of the CDN file-listing request issued by
`fetchFiles`. -/
inductive FilesUpstream where
  | ok (body : Json)
  | err (e : GotErr)

/-- Embedding of `_.pick(response.body, ['default', 'files'])`. -/
def pickDefaultFiles : Json → Json
  | .obj fs =>
    .obj (["default", "files"].filterMap fun k =>
      (fs.find? (fun p => p.1 == k)).map fun p => (k, p.2))
  | _ => .obj []

/-- Embedding of `fetchFiles`: on fulfilment the body is narrowed to its
`default`/`files` fields; a rejection whose `response.statusCode` is 403
is converted into the ordinary value `{ status, message }`; every other
rejection is re-thrown unchanged. -/
def fetchFiles (u : FilesUpstream) : Except GotErr Json :=
  match u with
  | .ok body => .ok (pickDefaultFiles body)
  | .err e =>
    if e.statusCode == some 403 then
      .ok (.obj [("status", .num 403), ("message", e.body)])
    else .error e

/-- Observable actions of the cache-aside helpers. -/
inductive Ev where
  | redisGet (key : String)
  | redisSet (key : String) (ttl : Option Nat)
  | upstreamFiles
  | upstreamMeta
deriving DecidableEq

/-- One redis namespace: entries keyed by string, each with the value and
the TTL passed to `setAsync` (`none` when no `'EX'` argument was given). -/
abbrev Store (α : Type) : Type := List (String × α × Option Nat)

/-- Redis `GET` (the value of the most recent `SET` for the key). -/
def lookupStore (st : Store α) (key : String) : Option α :=
  (st.find? (fun e => e.1 == key)).map (fun e => e.2.1)

/-- Redis `SET`. -/
def setStore (st : Store α) (key : String) (v : α) (ttl : Option Nat) : Store α :=
  (key, v, ttl) :: st

/-- Embedding of `getFilesAsJson` (and of `getFiles`, which parses its
serialized result): a redis hit returns the cached value with no further
effect; on a miss the fetched value is written back with no TTL; a
rejected fetch propagates and writes nothing. -/
def getFilesAsJson (key : String) (u : FilesUpstream) (st : Store Json) :
    Except GotErr Json × Store Json × List Ev :=
  match lookupStore st key with
  | some v => (.ok v, st, [.redisGet key])
  | none =>
    match fetchFiles u with
    | .ok files =>
      (.ok files, setStore st key files none,
        [.redisGet key, .upstreamFiles, .redisSet key none])
    | .error e => (.error e, st, [.redisGet key, .upstreamFiles])

/-- Embedding of `fetchMetadata`: dispatch on the package type, with an
`Unknown package type` error for anything but `npm` and `gh`. -/
def fetchMetadata (type name : String) (npmBody : Option NpmBody)
    (ghFirst : GhResp) (ghRest : List GhResp) : Except String PackageMetadata :=
  if type == "npm" then fetchNpmMetadata name npmBody
  else if type == "gh" then fetchGitHubMetadata ghFirst ghRest
  else .error ("Unknown package type " ++ type ++ ".")

/-- Embedding of `getMetadataAsJson` (and of `getMetadata`): a redis hit
returns the cached value; on a miss the fetched metadata is written back
with the source-type TTL (`'EX', v1Config[type].maxAge`); a rejected
fetch propagates and writes nothing. -/
def getMetadataAsJson (key : String) (fetchRes : Except String PackageMetadata)
    (maxAge : Nat) (st : Store PackageMetadata) :
    Except String PackageMetadata × Store PackageMetadata × List Ev :=
  match lookupStore st key with
  | some m => (.ok m, st, [.redisGet key])
  | none =>
    match fetchRes with
    | .ok m =>
      (.ok m, setStore st key m (some maxAge),
        [.redisGet key, .upstreamMeta, .redisSet key (some maxAge)])
    | .error e => (.error e, st, [.redisGet key, .upstreamMeta])

/-- The redis keyspace touched by one request: the metadata key and the
files key live in disjoint namespaces (`package/<type>/<name>/metadata`
vs `package/<type>/<name>@<version>/files`). -/
structure Redis where
  metaStore : Store PackageMetadata
  filesStore : Store Json

/-- Embedding of `responseNotFound`. -/
def responseNotFound (name version : String) : Json :=
  .obj [("status", .num 404),
    ("message", .str ("Couldn't find " ++ name ++ "@" ++ version ++ "."))]

/-- The version-validation failure body of `handleVersionFiles`. -/
def versionNotFoundBody (name version : String) : Json :=
  .obj [("status", .num 404),
    ("message", .str ("Couldn't find version " ++ version ++ " for " ++ name ++
      ". Make sure you use a specific version number, and not a version range or a tag."))]

/-- Embedding of `handleVersionFiles`: metadata is fetched cache-aside
(a failure becomes `responseNotFound`); the requested version must be a
literal member of `metadata.versions` (otherwise the dedicated 404 body
is returned and the file listing is never touched); then the file
listing is fetched cache-aside, a `got.ParseError` being mapped to
`{ status: statusCode || 502, message }` and any other rejection
re-thrown (`Except.error`). -/
def handleVersionFiles (name version metaKey filesKey : String)
    (metaFetch : Except String PackageMetadata) (u : FilesUpstream)
    (maxAge : Nat) (r : Redis) : Except GotErr Json × Redis × List Ev :=
  match getMetadataAsJson metaKey metaFetch maxAge r.metaStore with
  | (mres, mst, mevs) =>
    match mres with
    | .error _ => (.ok (responseNotFound name version), ⟨mst, r.filesStore⟩, mevs)
    | .ok metadata =>
      if !(metadata.versions.contains version) then
        (.ok (versionNotFoundBody name version), ⟨mst, r.filesStore⟩, mevs)
      else
        match getFilesAsJson filesKey u r.filesStore with
        | (fres, fst, fevs) =>
          match fres with
          | .ok files => (.ok files, ⟨mst, fst⟩, mevs ++ fevs)
          | .error e =>
            if e.cls == ErrClass.parseError then
              (.ok (.obj [("status", .num (e.statusCode.getD 502)), ("message", e.body)]),
                ⟨mst, fst⟩, mevs ++ fevs)
            else (.error e, ⟨mst, fst⟩, mevs ++ fevs)

/-! ## Branch lemmas for `getResolvedVersion` -/

theorem not_mem_of_contains_false {l : List String} {a : String}
    (h : l.contains a = false) : a ∉ l := fun hm => by
  have hc : l.contains a = true := List.elem_iff.mpr hm
  rw [hc] at h
  exact Bool.noConfusion h

/-- A string produced by the tag lookup on an object comes from one of
its fields. -/
theorem tagsGet_obj_str {fs : List (String × String)} {k v : String}
    (h : Tags.get (Tags.obj fs) k = JsVal.str v) : ∃ p ∈ fs, p.2 = v := by
  simp only [Tags.get] at h
  split at h
  · rename_i p hp
    rw [JsVal.str.injEq] at h
    exact ⟨p, List.mem_of_find?_eq_some hp, h⟩
  · exact absurd h (by simp)

/-- A string produced by the tag lookup on an array is one of its
elements. -/
theorem tagsGet_arr_str {es : List String} {k v : String}
    (h : Tags.get (Tags.arr es) k = JsVal.str v) : v ∈ es := by
  simp only [Tags.get] at h
  split at h
  · exact absurd h (by simp)
  · split at h
    · split at h
      · rename_i hg
        rw [JsVal.str.injEq] at h
        rw [← h]
        exact List.getElem?_mem hg
      · exact absurd h (by simp)
    · exact absurd h (by simp)

theorem getRV_exact {m : PackageMetadata} {spec : String}
    (h1 : spec ∈ m.versions) :
    getResolvedVersion m spec = JsVal.str spec := by
  simp [getResolvedVersion, h1]

theorem getRV_tag {m : PackageMetadata} {spec : String}
    (h1 : spec ∉ m.versions)
    (h2 : m.tags.hasOwnProperty spec = true) :
    getResolvedVersion m spec = m.tags.get spec := by
  simp [getResolvedVersion, h1, h2]

theorem getRV_latest {m : PackageMetadata} {spec : String}
    (h1 : spec ∉ m.versions)
    (h2 : m.tags.hasOwnProperty spec = false)
    (h3 : spec = "latest" ∨ spec = "") :
    getResolvedVersion m spec =
      match insortDesc (m.versions.filter releaseFilter) with
      | [] => JsVal.undefined
      | v :: _ => JsVal.str v := by
  rcases h3 with rfl | rfl <;> simp [getResolvedVersion, h1, h2]

theorem getRV_range {m : PackageMetadata} {spec : String}
    (h1 : spec ∉ m.versions)
    (h2 : m.tags.hasOwnProperty spec = false)
    (h3 : spec ≠ "latest") (h4 : spec ≠ "") :
    getResolvedVersion m spec =
      maxSatisfying (insortDesc (m.versions.filter releaseFilter)) spec := by
  simp [getResolvedVersion, h1, h2, h3, h4]

/-! ## Claim C1 (corrected) -/

/-- The metadata of the specification's end-to-end example:
`versions = ["1.0.0", "1.1.1", "2.0.0"]`. -/
def leftPadMeta : PackageMetadata := ⟨Tags.obj [], ["1.0.0", "1.1.1", "2.0.0"]⟩

/-- C1, counterexample: a specifier that matches no version (`9.x`
against the example metadata) does NOT produce the 404 payload.
`semver.maxSatisfying` returns `null` without raising, so the `try`
block completes and `handleResolveVersion` answers `{ version: null }`. -/
theorem C1_counterexample :
    handleResolveVersion (Except.ok leftPadMeta) "left-pad" "9.x" =
      RvBody.version JsVal.null ∧
    RvBody.version JsVal.null ≠ RvBody.err 404 "Couldn't find left-pad@9.x." := by
  constructor
  · decide
  · decide

/-- C1, amended: the 404 payload `{status: 404, message: "Couldn't find
<name>@<specifier>."}` is produced exactly when the metadata fetch (or
anything inside the `try`) raises; a successful fetch always yields a
`{ version }` body - `"1.x"` resolves to `"1.1.1"`, while a matchless
specifier such as `"9.x"` yields `{ version: null }` rather than the 404
payload. -/
theorem C1_resolveVersionOutcomes :
    (∀ (e name spec : String),
      handleResolveVersion (Except.error e) name spec =
        RvBody.err 404 ("Couldn't find " ++ name ++ "@" ++ spec ++ ".")) ∧
    (∀ (m : PackageMetadata) (name spec : String),
      handleResolveVersion (Except.ok m) name spec =
        RvBody.version (getResolvedVersion m spec)) ∧
    handleResolveVersion (Except.ok leftPadMeta) "left-pad" "1.x" =
      RvBody.version (JsVal.str "1.1.1") ∧
    handleResolveVersion (Except.ok leftPadMeta) "left-pad" "9.x" =
      RvBody.version JsVal.null := by
  refine ⟨fun e name spec => rfl, fun m name spec => rfl, ?_, ?_⟩
  · decide
  · decide

/-! ## Claim C2 (confirmed) -/

/-- C2: `getResolvedVersion` applies its rules in strict priority order -
an exact member of `versions` is returned unchanged; otherwise a key of
`tags` returns the tag-mapped value; only when neither matches are the
latest-fallback and range rules applied. -/
theorem C2_resolutionPriority (m : PackageMetadata) (spec : String) :
    (m.versions.contains spec = true → getResolvedVersion m spec = JsVal.str spec) ∧
    (m.versions.contains spec = false → m.tags.hasOwnProperty spec = true →
      getResolvedVersion m spec = m.tags.get spec) ∧
    (m.versions.contains spec = false → m.tags.hasOwnProperty spec = false →
      (spec = "latest" ∨ spec = "") →
      getResolvedVersion m spec =
        (match insortDesc (m.versions.filter releaseFilter) with
         | [] => JsVal.undefined
         | v :: _ => JsVal.str v)) ∧
    (m.versions.contains spec = false → m.tags.hasOwnProperty spec = false →
      spec ≠ "latest" → spec ≠ "" →
      getResolvedVersion m spec =
        maxSatisfying (insortDesc (m.versions.filter releaseFilter)) spec) := by
  refine ⟨?_, ?_, ?_, ?_⟩
  · intro h1
    exact getRV_exact (List.elem_iff.mp h1)
  · intro h1 h2
    exact getRV_tag (not_mem_of_contains_false h1) h2
  · intro h1 h2 h3
    exact getRV_latest (not_mem_of_contains_false h1) h2 h3
  · intro h1 h2 h3 h4
    exact getRV_range (not_mem_of_contains_false h1) h2 h3 h4

/-- C2, witness: with `tags = {latest: "1.0.0"}` and
`versions = ["1.0.0", "2.0.0"]`, the tag named `latest` wins over the
`latest` keyword fallback (which would have picked `2.0.0`), and an
exact member is returned unchanged. -/
theorem C2_resolutionPriority_witness :
    getResolvedVersion ⟨Tags.obj [("latest", "1.0.0")], ["1.0.0", "2.0.0"]⟩ "latest" =
      JsVal.str "1.0.0" ∧
    getResolvedVersion leftPadMeta "2.0.0" = JsVal.str "2.0.0" := by
  constructor
  · have h := (C2_resolutionPriority
      ⟨Tags.obj [("latest", "1.0.0")], ["1.0.0", "2.0.0"]⟩ "latest").2.1
      (by decide) (by decide)
    rw [h]
    decide
  · exact (C2_resolutionPriority leftPadMeta "2.0.0").1 (by decide)

/-! ## Claim C3 (corrected) -/

/-- Metadata with a tag value dangling outside `versions`. -/
def danglingTagMeta : PackageMetadata := ⟨Tags.obj [("next", "9.9.9")], ["1.0.0"]⟩

/-- C3, counterexample: the tag-lookup branch returns the tag value with
no membership check, so a dangling tag resolves to a string that is not
a member of `versions`. -/
theorem C3_counterexample :
    getResolvedVersion danglingTagMeta "next" = JsVal.str "9.9.9" ∧
    danglingTagMeta.versions.contains "9.9.9" = false := by
  constructor
  · decide
  · decide

/-- Boolean form of "every value reachable through the tag lookup is a
member of `vs`". -/
def Tags.valuesAmong : Tags → List String → Bool
  | .obj fs, vs => fs.all (fun p => vs.contains p.2)
  | .arr es, vs => es.all (fun e => vs.contains e)

/-- C3, amended: whenever `getResolvedVersion` returns a version string,
that string is a member of the originating `versions` - provided every
tag-mapped value is itself a member (the exact, latest and range branches
need no such hypothesis; the tag branch does, because a dangling tag
value is returned unchecked). -/
theorem C3_memberInvariant (m : PackageMetadata) (spec v : String)
    (ht : Tags.valuesAmong m.tags m.versions = true)
    (h : getResolvedVersion m spec = JsVal.str v) :
    v ∈ m.versions := by
  by_cases h1 : spec ∈ m.versions
  · rw [getRV_exact h1] at h
    rw [JsVal.str.injEq] at h
    subst h
    exact h1
  · by_cases h2 : m.tags.hasOwnProperty spec = true
    · rw [getRV_tag h1 h2] at h
      cases hm : m.tags with
      | obj fs =>
        rw [hm] at h ht
        obtain ⟨p, hp, hpv⟩ := tagsGet_obj_str h
        have hc := List.all_eq_true.mp ht p hp
        rw [← hpv]
        exact List.elem_iff.mp hc
      | arr es =>
        rw [hm] at h ht
        have he : v ∈ es := tagsGet_arr_str h
        have hc := List.all_eq_true.mp ht v he
        exact List.elem_iff.mp hc
    · have h2' : m.tags.hasOwnProperty spec = false := by
        cases hc : m.tags.hasOwnProperty spec
        · rfl
        · exact absurd hc h2
      by_cases h3 : spec = "latest" ∨ spec = ""
      · rw [getRV_latest h1 h2' h3] at h
        cases hs : insortDesc (m.versions.filter releaseFilter) with
        | nil =>
          rw [hs] at h
          exact absurd h (by simp)
        | cons w rest =>
          rw [hs] at h
          rw [JsVal.str.injEq] at h
          have hw : w ∈ insortDesc (m.versions.filter releaseFilter) := by
            rw [hs]
            exact List.mem_cons_self w rest
          rw [← h]
          exact (List.mem_filter.mp (insortDesc_mem.mp hw)).1
      · rw [getRV_range h1 h2' (fun hc => h3 (Or.inl hc)) (fun hc => h3 (Or.inr hc))] at h
        have hms := maxSatisfying_mem h
        exact (List.mem_filter.mp (insortDesc_mem.mp hms)).1

/-- C3, witness: a tag whose value does lie in `versions` resolves to a
member of `versions`. -/
theorem C3_memberInvariant_witness :
    Tags.valuesAmong (Tags.obj [("beta", "1.0.0")]) ["1.0.0", "2.0.0"] = true ∧
    "1.0.0" ∈ (["1.0.0", "2.0.0"] : List String) :=
  ⟨by decide,
    C3_memberInvariant ⟨Tags.obj [("beta", "1.0.0")], ["1.0.0", "2.0.0"]⟩ "beta" "1.0.0"
      (by decide) (by decide)⟩

/-! ## Claim C4 (corrected) -/

/-- C4, counterexample: with `versions = ["latest", "1.0.0"]` (a GitHub
repository can carry a tag literally named `latest`) the exact-member
rule fires first and returns the string `latest` itself, which is not a
valid semantic version at all - not the highest valid non-prerelease
entry (`1.0.0`) the claim promises. -/
theorem C4_counterexample :
    getResolvedVersion ⟨Tags.obj [], ["latest", "1.0.0"]⟩ "latest" =
      JsVal.str "latest" ∧
    semverValid "latest" = false := by
  constructor
  · decide
  · decide

/-- C4, amended: when the specifier is `latest` or empty AND is neither a
literal member of `versions` nor a tag key, and at least one valid
non-prerelease version exists, resolution returns a valid non-prerelease
member of `versions` of maximal precedence (the head of the descending
sort of the filtered list). -/
theorem C4_latestFallback (m : PackageMetadata) (spec : String)
    (hspec : spec = "latest" ∨ spec = "")
    (h1 : spec ∉ m.versions)
    (h2 : m.tags.hasOwnProperty spec = false)
    (hne : ∃ w ∈ m.versions, releaseFilter w = true) :
    ∃ v, getResolvedVersion m spec = JsVal.str v ∧
      v ∈ m.versions ∧ releaseFilter v = true ∧
      ∀ w ∈ m.versions, releaseFilter w = true → cmpStr w v ≠ .gt := by
  rw [getRV_latest h1 h2 hspec]
  obtain ⟨w, hw, hfw⟩ := hne
  have hwf : w ∈ m.versions.filter releaseFilter := List.mem_filter.mpr ⟨hw, hfw⟩
  cases hs : insortDesc (m.versions.filter releaseFilter) with
  | nil =>
    exfalso
    have : w ∈ insortDesc (m.versions.filter releaseFilter) := insortDesc_mem.mpr hwf
    rw [hs] at this
    exact absurd this (List.not_mem_nil w)
  | cons v rest =>
    have hv : v ∈ m.versions.filter releaseFilter := by
      refine insortDesc_mem.mp ?_
      rw [hs]
      exact List.mem_cons_self v rest
    refine ⟨v, rfl, (List.mem_filter.mp hv).1, (List.mem_filter.mp hv).2, ?_⟩
    intro w' hw' hfw'
    exact insortDesc_head_max hs w' (List.mem_filter.mpr ⟨hw', hfw'⟩)

/-! ## Claim C5 (corrected) -/

/-- C5, counterexample: a registry response whose `versions` object has
keys that are not valid semantic versions makes `semver.rcompare` throw
(`Invalid Version`) during the sort, so the fetch rejects instead of
returning the metadata the claim promises. -/
theorem C5_counterexample :
    fetchNpmMetadata "pkg" (some ⟨some ["foo", "bar"], Tags.obj []⟩) =
      Except.error "Invalid Version: foo" := by
  rfl

/-- C5, amended: an absent body or a body without a (truthy) versions
collection fails with the "no versions" error (the name in the message
being the URL-encoded one); a body whose version keys are all valid
semantic versions produces metadata whose `versions` are exactly those
keys sorted descending by precedence and whose `tags` are the `dist-tags`
field copied verbatim; invalid keys instead make the sort throw. -/
theorem C5_npmMetadataShape (name : String) (b : NpmBody) (keys : List String)
    (hk : b.versions = some keys) (hv : ∀ k ∈ keys, semverValid k = true) :
    fetchNpmMetadata name none =
      Except.error ("Unable to retrieve versions for package " ++
        encodePackageName name ++ ".") ∧
    (∀ tags, fetchNpmMetadata name (some ⟨none, tags⟩) =
      Except.error ("Unable to retrieve versions for package " ++
        encodePackageName name ++ ".")) ∧
    ∃ sorted, fetchNpmMetadata name (some b) = Except.ok ⟨b.distTags, sorted⟩ ∧
      sorted.Perm keys ∧ DescSorted sorted := by
  refine ⟨rfl, fun tags => rfl, insortDesc keys, ?_, insortDesc_perm keys,
    insortDesc_descSorted keys⟩
  unfold fetchNpmMetadata
  simp only [hk, insortDescE_eq hv]

/-- C5, witness: two valid keys are sorted descending with the
`dist-tags` carried over unchanged. -/
theorem C5_npmMetadataShape_witness :
    ∃ sorted,
      fetchNpmMetadata "pkg"
          (some ⟨some ["1.0.0", "2.0.0"], Tags.obj [("latest", "2.0.0")]⟩) =
        Except.ok ⟨Tags.obj [("latest", "2.0.0")], sorted⟩ ∧
      sorted.Perm ["1.0.0", "2.0.0"] ∧ DescSorted sorted :=
  (C5_npmMetadataShape "pkg" ⟨some ["1.0.0", "2.0.0"], Tags.obj [("latest", "2.0.0")]⟩
    ["1.0.0", "2.0.0"] rfl (by decide)).2.2

/-! ## Claim C6 (corrected) -/

/-- C6, counterexample: `fetchGitHubMetadata` produces `tags: []` - an
empty ARRAY, not the empty mapping `{}` - and a JS array owns the
property `length`, so the specifier `length` DOES match in the
tag-lookup branch, resolving to `0` (the array's length). -/
theorem C6_counterexample :
    fetchGitHubMetadata ⟨some ["1.0.0"], false⟩ [] =
      Except.ok ⟨Tags.arr [], ["1.0.0"]⟩ ∧
    Tags.hasOwnProperty (Tags.arr []) "length" = true ∧
    getResolvedVersion ⟨Tags.arr [], ["1.0.0"]⟩ "length" = JsVal.num 0 := by
  refine ⟨rfl, rfl, ?_⟩
  decide

theorem loadMoreM_mk :
    ∀ (ps : List (List String)) (first acc : List String),
      loadMoreM ⟨some first, !ps.isEmpty⟩ (mkGhResps ps) acc =
        Except.ok (acc ++ (first :: ps).flatten)
  | [], first, acc => by
    simp [loadMoreM]
  | p :: ps, first, acc => by
    show loadMoreM ⟨some first, true⟩ (⟨some p, !ps.isEmpty⟩ :: mkGhResps ps) acc = _
    rw [loadMoreM]
    simp only [Option.isSome_some, Bool.true_and, if_true, Option.getD_some]
    rw [loadMoreM_mk ps p (acc ++ first)]
    simp [List.append_assoc]

/-- Shared shape lemma: a fully-consumed page sequence accumulates the
pages' tag names in order, with `tags` the empty array. -/
theorem fetchGitHubMetadata_mk (first : List String) (ps : List (List String)) :
    fetchGitHubMetadata ⟨some first, !ps.isEmpty⟩ (mkGhResps ps) =
      Except.ok ⟨Tags.arr [], (first :: ps).flatten⟩ := by
  unfold fetchGitHubMetadata
  rw [loadMoreM_mk ps first []]
  rfl

/-- Three pages of 100, 100 and 37 pairwise distinct tag names. -/
def ghPage1 : List String := (List.range 100).map Nat.repr

def ghPage2 : List String := (List.range 100).map (fun i => Nat.repr (100 + i))

def ghPage3 : List String := (List.range 37).map (fun i => Nat.repr (200 + i))

set_option maxRecDepth 4000 in
/-- C6, amended: `versions` is the concatenation of each page's tag
names in upstream order until the pagination cursor is exhausted, and
`tags` is the empty array `[]` (whose own property `length` can still
match a specifier); a 3-page listing of 100+100+37 distinct entries
yields exactly 237 accumulated versions with no duplicates. -/
theorem C6_githubPagination :
    (∀ (first : List String) (ps : List (List String)),
      fetchGitHubMetadata ⟨some first, !ps.isEmpty⟩ (mkGhResps ps) =
        Except.ok ⟨Tags.arr [], (first :: ps).flatten⟩) ∧
    (∃ m, fetchGitHubMetadata ⟨some ghPage1, true⟩ (mkGhResps [ghPage2, ghPage3]) =
        Except.ok m ∧ m.versions.length = 237 ∧ m.versions.Nodup) := by
  refine ⟨fetchGitHubMetadata_mk, ?_⟩
  refine ⟨⟨Tags.arr [], (ghPage1 :: [ghPage2, ghPage3]).flatten⟩,
    fetchGitHubMetadata_mk ghPage1 [ghPage2, ghPage3], ?_, ?_⟩
  · simp [ghPage1, ghPage2, ghPage3]
  · have hmap : ((ghPage1 :: [ghPage2, ghPage3]).flatten).map
        (fun s => natOfDigits s.data) = List.range 237 := by decide
    have hnd : (((ghPage1 :: [ghPage2, ghPage3]).flatten).map
        (fun s => natOfDigits s.data)).Nodup := by
      rw [hmap]
      exact List.nodup_range 237
    exact List.Nodup.of_map _ hnd

/-! ## Claim C7 (confirmed) -/

theorem getMetadataAsJson_no_files_ev (key : String)
    (fetchRes : Except String PackageMetadata) (maxAge : Nat)
    (st : Store PackageMetadata) :
    Ev.upstreamFiles ∉ (getMetadataAsJson key fetchRes maxAge st).2.2 := by
  unfold getMetadataAsJson
  cases lookupStore st key
  · cases fetchRes <;> simp
  · simp

/-- C7: when the requested version is not a literal member of the cached
metadata's `versions` - whatever the string is, a tag name or a
satisfiable range included - `handleVersionFiles` answers the dedicated
payload "Couldn't find version <version> for <name>. Make sure you use a
specific version number, and not a version range or a tag.", never
contacts the file-listing upstream, and leaves the files store
untouched. -/
theorem C7_versionFilesLiteralCheck (name version metaKey filesKey : String)
    (mf : Except String PackageMetadata) (u : FilesUpstream) (maxAge : Nat)
    (r : Redis) (m : PackageMetadata)
    (hm : (getMetadataAsJson metaKey mf maxAge r.metaStore).1 = Except.ok m)
    (hv : m.versions.contains version = false) :
    (handleVersionFiles name version metaKey filesKey mf u maxAge r).1 =
      Except.ok (versionNotFoundBody name version) ∧
    Ev.upstreamFiles ∉ (handleVersionFiles name version metaKey filesKey mf u maxAge r).2.2 ∧
    (handleVersionFiles name version metaKey filesKey mf u maxAge r).2.1.filesStore =
      r.filesStore := by
  have hev := getMetadataAsJson_no_files_ev metaKey mf maxAge r.metaStore
  rcases hG : getMetadataAsJson metaKey mf maxAge r.metaStore with ⟨mres, mst, mevs⟩
  rw [hG] at hm hev
  simp only at hm hev
  subst hm
  have hnm := not_mem_of_contains_false hv
  unfold handleVersionFiles
  rw [hG]
  simp [hnm, hev]

/-- Concrete metadata and store for the C7 witness: the version `latest`
is a tag name but not a literal member of `versions`. -/
def c7Meta : PackageMetadata := ⟨Tags.obj [("latest", "1.0.0")], ["1.0.0"]⟩

def c7Redis : Redis := ⟨[("package/npm/pkg/metadata", c7Meta, some 100)], []⟩

/-- C7, witness: requesting the tag name `latest` as a version is
rejected with the dedicated message and no file fetch. -/
theorem C7_versionFilesLiteralCheck_witness :
    (handleVersionFiles "pkg" "latest" "package/npm/pkg/metadata" "fk"
        (Except.error "down") (FilesUpstream.ok (Json.obj [])) 100 c7Redis).1 =
      Except.ok (versionNotFoundBody "pkg" "latest") ∧
    Ev.upstreamFiles ∉ (handleVersionFiles "pkg" "latest" "package/npm/pkg/metadata" "fk"
        (Except.error "down") (FilesUpstream.ok (Json.obj [])) 100 c7Redis).2.2 ∧
    (handleVersionFiles "pkg" "latest" "package/npm/pkg/metadata" "fk"
        (Except.error "down") (FilesUpstream.ok (Json.obj [])) 100 c7Redis).2.1.filesStore =
      c7Redis.filesStore :=
  C7_versionFilesLiteralCheck "pkg" "latest" "package/npm/pkg/metadata" "fk"
    (Except.error "down") (FilesUpstream.ok (Json.obj [])) 100 c7Redis c7Meta
    (by rfl) (by decide)

/-! ## Claim C8 (confirmed) -/

/-- C8: with valid cached-or-fetched metadata containing the version and
a files-cache miss, an upstream rejection carrying status 403 is turned
into the ordinary value `{status: 403, message: <upstream body>}` by
`fetchFiles` and that value becomes the response body; a rejection
surfaced as a `got.ParseError` is mapped to
`{status: statusCode || 502, message}` - the upstream status code when
present, 502 otherwise. -/
theorem C8_fileListingFailureMapping (name version metaKey filesKey : String)
    (mf : Except String PackageMetadata) (maxAge : Nat) (r : Redis)
    (m : PackageMetadata) (e : GotErr)
    (hm : (getMetadataAsJson metaKey mf maxAge r.metaStore).1 = Except.ok m)
    (hv : m.versions.contains version = true)
    (hmiss : lookupStore r.filesStore filesKey = none) :
    (e.statusCode = some 403 →
      fetchFiles (FilesUpstream.err e) =
        Except.ok (Json.obj [("status", Json.num 403), ("message", e.body)]) ∧
      (handleVersionFiles name version metaKey filesKey mf (FilesUpstream.err e) maxAge r).1 =
        Except.ok (Json.obj [("status", Json.num 403), ("message", e.body)])) ∧
    (e.cls = ErrClass.parseError → e.statusCode ≠ some 403 →
      (handleVersionFiles name version metaKey filesKey mf (FilesUpstream.err e) maxAge r).1 =
        Except.ok (Json.obj [("status", Json.num (e.statusCode.getD 502)),
          ("message", e.body)])) := by
  rcases hG : getMetadataAsJson metaKey mf maxAge r.metaStore with ⟨mres, mst, mevs⟩
  rw [hG] at hm
  simp only at hm
  subst hm
  have hmem : version ∈ m.versions := List.elem_iff.mp hv
  constructor
  · intro h403
    have hff : fetchFiles (FilesUpstream.err e) =
        Except.ok (Json.obj [("status", Json.num 403), ("message", e.body)]) := by
      simp [fetchFiles, h403]
    refine ⟨hff, ?_⟩
    unfold handleVersionFiles
    rw [hG]
    simp [hmem, getFilesAsJson, hmiss, hff]
  · intro hcls h403
    unfold handleVersionFiles
    rw [hG]
    have hff : fetchFiles (FilesUpstream.err e) = Except.error e := by
      simp [fetchFiles, h403]
    simp [hmem, getFilesAsJson, hmiss, hff, hcls]

/-- Concrete metadata and store for the C8 witness. -/
def c8Meta : PackageMetadata := ⟨Tags.obj [], ["1.0.0"]⟩

def c8Redis : Redis := ⟨[("mk", c8Meta, some 60)], []⟩

/-- C8, witness: a 403 passes through as a body; a `ParseError` with no
status maps to 502. -/
theorem C8_fileListingFailureMapping_witness :
    (handleVersionFiles "p" "1.0.0" "mk" "fk" (Except.error "x")
        (FilesUpstream.err ⟨ErrClass.httpError, some 403, Json.str "limited"⟩)
        60 c8Redis).1 =
      Except.ok (Json.obj [("status", Json.num 403), ("message", Json.str "limited")]) ∧
    (handleVersionFiles "p" "1.0.0" "mk" "fk" (Except.error "x")
        (FilesUpstream.err ⟨ErrClass.parseError, none, Json.str "bad json"⟩)
        60 c8Redis).1 =
      Except.ok (Json.obj [("status", Json.num 502), ("message", Json.str "bad json")]) :=
  ⟨((C8_fileListingFailureMapping "p" "1.0.0" "mk" "fk" (Except.error "x") 60 c8Redis
      c8Meta ⟨ErrClass.httpError, some 403, Json.str "limited"⟩
      (by rfl) (by decide) rfl).1 rfl).2,
    (C8_fileListingFailureMapping "p" "1.0.0" "mk" "fk" (Except.error "x") 60 c8Redis
      c8Meta ⟨ErrClass.parseError, none, Json.str "bad json"⟩
      (by rfl) (by decide) rfl).2 rfl (by decide)⟩

/-! ## Claim C9 (confirmed) -/

/-- C9: when `fetchMetadata` fails (the "no versions" error, the
`Invalid Version` sorting error, the unknown-package-type error, or any
transport failure), `getMetadataAsJson` leaves the metadata store
untouched, performs no redis write at all, and (on a cache miss)
propagates exactly that failure - the failure is never stored as a
negative cache entry. -/
theorem C9_noNegativeCaching (type name key : String) (npmBody : Option NpmBody)
    (ghFirst : GhResp) (ghRest : List GhResp) (maxAge : Nat)
    (st : Store PackageMetadata) (e : String)
    (hf : fetchMetadata type name npmBody ghFirst ghRest = Except.error e) :
    (getMetadataAsJson key (fetchMetadata type name npmBody ghFirst ghRest) maxAge st).2.1 =
      st ∧
    (∀ k t, Ev.redisSet k t ∉
      (getMetadataAsJson key (fetchMetadata type name npmBody ghFirst ghRest) maxAge st).2.2) ∧
    (lookupStore st key = none →
      (getMetadataAsJson key (fetchMetadata type name npmBody ghFirst ghRest) maxAge st).1 =
        Except.error e) := by
  rw [hf]
  cases hL : lookupStore st key <;> simp [getMetadataAsJson, hL]

/-- C9, witness: the unknown-package-type failure is propagated on a
miss over the empty store, which stays empty. -/
theorem C9_noNegativeCaching_witness :
    fetchMetadata "bower" "pkg" none ⟨none, false⟩ [] =
      Except.error "Unknown package type bower." ∧
    (getMetadataAsJson "k" (fetchMetadata "bower" "pkg" none ⟨none, false⟩ []) 60 []).2.1 =
      ([] : Store PackageMetadata) ∧
    (getMetadataAsJson "k" (fetchMetadata "bower" "pkg" none ⟨none, false⟩ []) 60 []).1 =
      Except.error "Unknown package type bower." :=
  ⟨rfl,
    (C9_noNegativeCaching "bower" "pkg" "k" none ⟨none, false⟩ [] 60 []
      "Unknown package type bower." rfl).1,
    (C9_noNegativeCaching "bower" "pkg" "k" none ⟨none, false⟩ [] 60 []
      "Unknown package type bower." rfl).2.2 rfl⟩

/-! ## Claim C10 (confirmed) -/

/-- C10: once a value sits under a files cache key - the 403 payload
written with no TTL included - every `getFilesAsJson`/`getFiles` call
for that key returns the cached value, contacts no upstream, and writes
nothing: the whole outcome is exactly `(ok v, st, [redisGet key])`. -/
theorem C10_filesCacheHit (key : String) (u : FilesUpstream) (st : Store Json)
    (v : Json) (h : lookupStore st key = some v) :
    getFilesAsJson key u st = (Except.ok v, st, [Ev.redisGet key]) := by
  simp [getFilesAsJson, h]

/-- The 403 payload cached by the C10 witness. -/
def p403 : Json := Json.obj [("status", Json.num 403), ("message", Json.str "limited")]

/-- C10, witness: a 403 outcome is written with no TTL; the next call -
even with a healthy upstream - returns the cached payload with a single
redis read. -/
theorem C10_filesCacheHit_witness :
    (getFilesAsJson "fk"
        (FilesUpstream.err ⟨ErrClass.httpError, some 403, Json.str "limited"⟩) []).2.1 =
      [("fk", p403, none)] ∧
    getFilesAsJson "fk" (FilesUpstream.ok (Json.obj [("default", Json.str "/x.js")]))
        [("fk", p403, none)] =
      (Except.ok p403, [("fk", p403, none)], [Ev.redisGet "fk"]) :=
  ⟨rfl,
    C10_filesCacheHit "fk" (FilesUpstream.ok (Json.obj [("default", Json.str "/x.js")]))
      [("fk", p403, none)] p403 rfl⟩

/-- C4, witness: the specification's own example -
`versions = ["2.0.0", "1.5.0", "1.0.0-beta"]` with no `latest` tag key -
resolves `latest` to `2.0.0`, the prerelease being excluded. -/
theorem C4_latestFallback_witness :
    (∃ v, getResolvedVersion ⟨Tags.obj [], ["2.0.0", "1.5.0", "1.0.0-beta"]⟩ "latest" =
        JsVal.str v ∧
      v ∈ (["2.0.0", "1.5.0", "1.0.0-beta"] : List String) ∧ releaseFilter v = true ∧
      ∀ w ∈ (["2.0.0", "1.5.0", "1.0.0-beta"] : List String),
        releaseFilter w = true → cmpStr w v ≠ .gt) ∧
    getResolvedVersion ⟨Tags.obj [], ["2.0.0", "1.5.0", "1.0.0-beta"]⟩ "latest" =
      JsVal.str "2.0.0" :=
  ⟨C4_latestFallback ⟨Tags.obj [], ["2.0.0", "1.5.0", "1.0.0-beta"]⟩ "latest"
      (Or.inl rfl) (by decide) (by decide) ⟨"2.0.0", by decide, by decide⟩,
    by decide⟩

end JsDelivr
